import Mathlib

/-!
Verification of the nested-field resolution layer of the
`strawberry.experimental.pydantic` slice (files
`nested/base.py`, `nested/ormar.py`, `nested/sqlmodel.py`, `nested/__init__.py`,
`orm.py`, `lazy_types.py`).

Embedding conventions:

* Runtime Python `typing` values are modelled by the inductive `PyType`.
  The semantics of `typing.Union` / `typing.Optional` / `typing.List`
  construction follow CPython 3.11 (`typing.py`): `Union[...]` flattens
  nested unions one level, removes duplicates keeping first occurrences,
  collapses a single remaining parameter, and the resulting alias has
  `_name == "Optional"` exactly when it has two arguments one of which is
  `NoneType`; `List[x]` has `_name == "List"`; `Optional[x]` is literally
  `Union[x, NoneType]`.
* Classes are modelled by `Cls`: an identity plus the class-hierarchy facts
  the code queries (`issubclass(-, pydantic.BaseModel)`,
  `issubclass(-, ormar.Model)`, `issubclass(-, sqlmodel.SQLModel)`) and the
  optional `_strawberry_type` cache attribute.
* The dynamically created `LazyModelType[...]` / `LazyForwardRefType[...]`
  placeholder instances are fresh objects on every creation (a new subclass
  is declared per parameterisation, so two creations are never equal); this
  is modelled by a creation token drawn from a counter threaded through the
  functions that can create placeholders.
* Metadata supplied by the external record/ORM frameworks (spec section 6:
  pydantic `__fields__` / `outer_type_` / `type_` / `required`, ormar
  relation descriptors and field accessors, sqlalchemy relationship
  properties) is carried by an environment `Env`, one lookup table per
  framework.
* Python exceptions are modelled by `Except Err`.
-/

namespace Strawberry

/-- Model of a Python class object: identity, hierarchy membership facts the
code under verification queries, and the optional `_strawberry_type` cache
attribute (holding the id of an already generated strawberry type). -/
structure Cls where
  cid : Nat
  isPyd : Bool := false
  isOrmarModel : Bool := false
  isSQLModel : Bool := false
  cache : Option Nat := none
deriving DecidableEq, Repr

/-- Model of a runtime Python typing value as seen by this code. -/
inductive PyType where
  /-- A class object (record model, scalar class, generated type, ...). -/
  | cls (c : Cls)
  /-- The class `NoneType` (`None.__class__`). -/
  | noneType
  /-- An already generated strawberry type object, e.g. a `_strawberry_type`
  cache value (opaque to this code, passes through unchanged). -/
  | sbType (n : Nat)
  /-- A `typing.ForwardRef` carrying the referenced name. -/
  | fwd (s : String)
  /-- `typing.List[a]` (`_name == "List"`). -/
  | listTy (a : PyType)
  /-- A `typing._UnionGenericAlias` with `__args__ = args`. -/
  | unionTy (args : List PyType)
  /-- Fresh instance of a dynamically declared `LazyModelType` subclass
  wrapping `t`; `tok` is the creation token (distinct creations differ). -/
  | lazyModel (t : PyType) (tok : Nat)
  /-- Fresh instance of a dynamically declared `LazyForwardRefType` subclass
  wrapping (model, field name, alternative index). -/
  | lazyFwd (model : Cls) (name : String) (idx : Nat) (tok : Nat)
deriving Repr

mutual

/-- Structural equality on `PyType` (Python `==` on these values). -/
def PyType.beq : PyType → PyType → Bool
  | .cls c, .cls d => c = d
  | .noneType, .noneType => true
  | .sbType n, .sbType m => n = m
  | .fwd s, .fwd t => s = t
  | .listTy a, .listTy b => PyType.beq a b
  | .unionTy as, .unionTy bs => PyType.beqList as bs
  | .lazyModel t n, .lazyModel u m => PyType.beq t u && n = m
  | .lazyFwd c s i n, .lazyFwd d t j m => c = d && s = t && i = j && n = m
  | _, _ => false

/-- Pointwise structural equality on lists of `PyType`. -/
def PyType.beqList : List PyType → List PyType → Bool
  | [], [] => true
  | a :: as, b :: bs => PyType.beq a b && PyType.beqList as bs
  | _, _ => false

end

mutual

theorem PyType.beq_refl : ∀ (a : PyType), PyType.beq a a = true
  | .cls _ => by simp [PyType.beq]
  | .noneType => by simp [PyType.beq]
  | .sbType _ => by simp [PyType.beq]
  | .fwd _ => by simp [PyType.beq]
  | .listTy a => by simp [PyType.beq]; exact PyType.beq_refl a
  | .unionTy as => by simp [PyType.beq]; exact PyType.beqList_refl as
  | .lazyModel t _ => by simp [PyType.beq]; exact PyType.beq_refl t
  | .lazyFwd _ _ _ _ => by simp [PyType.beq]

theorem PyType.beqList_refl : ∀ (as : List PyType), PyType.beqList as as = true
  | [] => by simp [PyType.beqList]
  | a :: as => by
      simp [PyType.beqList]
      exact ⟨PyType.beq_refl a, PyType.beqList_refl as⟩

end

mutual

theorem PyType.eq_of_beq : ∀ {a b : PyType}, PyType.beq a b = true → a = b
  | .cls _, .cls _, h => by simpa [PyType.beq] using h
  | .noneType, .noneType, _ => rfl
  | .sbType _, .sbType _, h => by simpa [PyType.beq] using h
  | .fwd _, .fwd _, h => by simpa [PyType.beq] using h
  | .listTy a, .listTy b, h => by
      simp [PyType.beq] at h
      exact congrArg PyType.listTy (PyType.eq_of_beq h)
  | .unionTy as, .unionTy bs, h => by
      simp [PyType.beq] at h
      exact congrArg PyType.unionTy (PyType.eqList_of_beqList h)
  | .lazyModel t n, .lazyModel u m, h => by
      simp [PyType.beq] at h
      obtain ⟨h1, h2⟩ := h
      rw [PyType.eq_of_beq h1, h2]
  | .lazyFwd _ _ _ _, .lazyFwd _ _ _ _, h => by
      simp [PyType.beq] at h
      simp_all

theorem PyType.eqList_of_beqList :
    ∀ {as bs : List PyType}, PyType.beqList as bs = true → as = bs
  | [], [], _ => rfl
  | a :: as, b :: bs, h => by
      simp [PyType.beqList] at h
      rw [PyType.eq_of_beq h.1, PyType.eqList_of_beqList h.2]

end

instance : DecidableEq PyType := fun a b =>
  decidable_of_iff (PyType.beq a b = true)
    ⟨PyType.eq_of_beq, fun h => h ▸ PyType.beq_refl a⟩

namespace PyType

/-- `_is_union`: `type(typ) is typing._UnionGenericAlias`. -/
def isUnion : PyType → Bool
  | .unionTy _ => true
  | _ => false

/-- One flattening pass of `typing._remove_dups_flatten`: parameters that are
themselves union aliases contribute their `__args__`. -/
def flattenOnce : List PyType → List PyType
  | [] => []
  | .unionTy as :: rest => as ++ flattenOnce rest
  | t :: rest => t :: flattenOnce rest

/-- `typing._deduplicate`: keep the first occurrence of each parameter
(membership is decided by Python `==`/`hash`; distinct placeholder classes
never compare equal). `seen` is the set of values already emitted. -/
def dedupSeen (seen : List PyType) : List PyType → List PyType
  | [] => []
  | x :: xs =>
      if x ∈ seen then dedupSeen seen xs
      else x :: dedupSeen (x :: seen) xs

/-- `typing.Union[params]`: flatten one level, deduplicate keeping first
occurrences, and collapse a single remaining parameter. (An empty parameter
list raises in Python and never occurs here.) -/
def mkUnion (params : List PyType) : PyType :=
  match dedupSeen [] (flattenOnce params) with
  | [t] => t
  | ps => .unionTy ps

/-- `typing.Optional[t] = typing.Union[t, None.__class__]`. -/
def mkOptional (t : PyType) : PyType :=
  mkUnion [t, .noneType]

/-- The `_name` attribute of a typing alias (`none` both when the attribute
is absent and when its value is Python `None`, as on a general union):
`List[x]` is named `"List"`, and a union alias is named `"Optional"` exactly
when it was built from two parameters one of which is `NoneType`. -/
def nameAttr : PyType → Option String
  | .listTy _ => some "List"
  | .unionTy args =>
      if args.length = 2 ∧ .noneType ∈ args then some "Optional" else none
  | _ => none

/-- `_may_be_model`: `(isclass(typ) and issubclass(typ, pydantic.BaseModel))
or isinstance(typ, ForwardRef)`. -/
def mayBeModel : PyType → Bool
  | .cls c => c.isPyd
  | .fwd _ => true
  | _ => false

/-- `getattr(typ, "_strawberry_type", None)` — only class objects carry the
cache attribute. -/
def cacheOf : PyType → Option Nat
  | .cls c => c.cache
  | _ => none

/-- Top-level membership: whether `x` is `t` itself or one of the immediate
alternatives of a union `t`. Used to state nullability (a Python type is
nullable exactly when `NoneType` is among its top-level union members, since
`Optional[u]` literally is such a union). -/
def topHas (x t : PyType) : Bool :=
  if t = x then true
  else
    match t with
    | .unionTy l => x ∈ l
    | _ => false

end PyType

/-- The error kinds this slice can raise (spec section 7), plus the generic
descriptive "unsupported model" error the spec describes for the dispatcher
(`unsupportedModelError`, carrying the model's name) which is needed to state
claim C9 and is never produced by the code as written. -/
inductive Err where
  /-- `RelationFieldError` of `nested/base.py`. -/
  | relationField
  /-- A Python `KeyError` on the given key. -/
  | keyError (k : String)
  /-- A Python `AttributeError` for the given attribute. -/
  | attributeError (a : String)
  /-- `UnsupportedTypeError` raised by `extract_type_list`. -/
  | unsupportedType (t : PyType)
  /-- A bare `assert` failure (no message). -/
  | assertionError
  /-- Reading a local variable that was never bound (`UnboundLocalError`). -/
  | nameError (v : String)
  /-- A descriptive unsupported-model error naming the model; described by
  the spec for the backend dispatcher, never raised by this code. -/
  | unsupportedModelError (m : String)
deriving DecidableEq, Repr

/-- The outer-wrapper markers `extract_type_list` appends to its wrapper
list: the only objects ever appended are the `typing.Optional` and
`typing.List` forms. -/
inductive Wrapper where
  | wOptional
  | wList
deriving DecidableEq, Repr

/-- The Python identity test `w is None.__class__` applied to an element of
the wrapper list: the wrapper list only ever holds the `typing.Optional` and
`typing.List` form objects, and neither is the `NoneType` class. -/
def Wrapper.isNoneTypeCls : Wrapper → Bool
  | .wOptional => false
  | .wList => false

open PyType

/-- `extract_type_list` (`nested/base.py`): unwrap outer `Optional` / `List`
wrappers around a declared field type, stopping at a model class, a forward
reference, or a general union (whose `__args__` become the bottom types);
any other shape raises `UnsupportedTypeError`. The `Optional` branch only
fires on an alias whose `_name` is `"Optional"`, i.e. a two-argument union
containing `NoneType`; it pops the first `NoneType` and continues with the
remaining argument. -/
def extract_type_list : PyType → Except Err (List Wrapper × List PyType)
  | .fwd s => .ok ([], [.fwd s])
  | .cls c =>
      if c.isPyd then .ok ([], [.cls c])
      else .error (.unsupportedType (.cls c))
  | .listTy a => do
      let (ws, inner) ← extract_type_list a
      .ok (.wList :: ws, inner)
  | .unionTy args =>
      match args with
      | [a, b] =>
          if a = .noneType then do
            let (ws, inner) ← extract_type_list b
            .ok (.wOptional :: ws, inner)
          else if b = .noneType then do
            let (ws, inner) ← extract_type_list a
            .ok (.wOptional :: ws, inner)
          else .ok ([], [a, b])
      | _ => .ok ([], args)
  | .noneType => .error (.unsupportedType .noneType)
  | .sbType n => .error (.unsupportedType (.sbType n))
  | .lazyModel t tok => .error (.unsupportedType (.lazyModel t tok))
  | .lazyFwd m s i tok => .error (.unsupportedType (.lazyFwd m s i tok))

/-- Reapplying one wrapper marker: `Optional[t]` or `List[t]`. -/
def applyWrapper (w : Wrapper) (t : PyType) : PyType :=
  match w with
  | .wOptional => mkOptional t
  | .wList => .listTy t

/-- The rewrap loop of `NestedPydanticBackend.get_strawberry_type`:
`for typ in self.outer_types[-1::-1]: strawberry_type = typ[strawberry_type]`
(innermost wrapper applied first). -/
def rebuild (ws : List Wrapper) (t : PyType) : PyType :=
  ws.reverse.foldl (fun acc w => applyWrapper w acc) t

/-! ## External framework metadata (spec section 6)

The record/ORM frameworks are external dependencies; the environment below
carries the per-model metadata the code reads from them. -/

/-- A pydantic `required` flag: either the `Undefined` sentinel (an
`UndefinedType` instance, which is truthy) or a definite boolean. -/
inductive Req where
  | undef
  | defined (b : Bool)
deriving DecidableEq, Repr

/-- The requiredness test of `nested/ormar.py` / `orm.py` in positive form:
`not (isinstance(r, UndefinedType) or not r)`, i.e. the flag is definitively
true (the undefined sentinel counts as not required). -/
def Req.definitelyTrue : Req → Bool
  | .defined true => true
  | _ => false

/-- A pydantic `ModelField` as read by `NestedPydanticBackend`:
`.type_`, `.outer_type_` and `.required`. -/
structure PydFieldInfo where
  type_ : PyType
  outer_type_ : PyType
  required : Req
deriving DecidableEq, Repr

/-- A pydantic model's metadata: `__fields__` and the result of
`get_type_hints(model)` (which has an entry for every declared field). -/
structure PydModelData where
  fields : List (String × PydFieldInfo)
  hints : List (String × PyType)

/-- The `field_info` of an ormar model field: a relation descriptor
(`ormar.ForeignKeyField` / `ormar.ManyToManyField`, `tgt` being its `.to`
target) or any other pydantic field info. -/
inductive OrmarFieldInfo where
  | foreignKey (tgt : PyType)
  | manyToMany (tgt : PyType)
  | plain
deriving DecidableEq, Repr

/-- `isinstance(f_info, ormar.ManyToManyField)`. -/
def OrmarFieldInfo.isM2M : OrmarFieldInfo → Bool
  | .manyToMany _ => true
  | _ => false

/-- An ormar model field: its `field_info`, its `required` flag, and the
value `field_info.to` takes after `model.update_forward_refs()` has run
(equal to the original target when that target is not a forward
reference). -/
structure OrmarField where
  field_info : OrmarFieldInfo
  required : Req
  toAfterUpdate : PyType
deriving DecidableEq, Repr

/-- An ormar model's metadata: `__fields__`, and the class attributes that
are reverse-relation `FieldAccessor` descriptors (mapping the attribute name
to the accessor's `._model`). -/
structure OrmarModelData where
  fields : List (String × OrmarField)
  accessors : List (String × Cls)

/-- Classification of `getattr(model, name).property.__class__` for a
sqlmodel class attribute: a sqlalchemy `RelationshipProperty` or anything
else. -/
inductive AttrProp where
  | relationship
  | other
deriving DecidableEq, Repr

/-- A sqlmodel class's metadata: its mapped attributes (classified by their
`.property`) and `__annotations__`. -/
structure SQLModelData where
  attrs : List (String × AttrProp)
  annotations : List (String × PyType)

/-- Whether the optional ORM packages imported successfully
(`NestedOrmarBackend` / `NestedSQLModelBackend` are non-None in
`nested/__init__.py`). -/
structure Installed where
  ormarInstalled : Bool
  sqlmodelInstalled : Bool

/-- The environment: per-class metadata for each external framework. -/
structure Env where
  pyd : Cls → PydModelData
  ormarData : Cls → OrmarModelData
  sqlm : Cls → SQLModelData

/-! ## NestedPydanticBackend (`nested/base.py`) -/

/-- State of a constructed `NestedPydanticBackend`. -/
structure PydState where
  name : String
  model : Cls
  fieldInfo : PydFieldInfo
  child_model : List PyType
deriving DecidableEq, Repr

/-- The relation-detection step of `NestedPydanticBackend._post_init` (after
the `__fields__` lookup): the field is a relation if its `.type_` is a
forward reference or a pydantic model class, or a union one of whose
arguments may be a model. Returns the value `self.child_model` is set to. -/
def pydDetect (f : PydFieldInfo) : Option (List PyType) :=
  match f.type_ with
  | .fwd s => some [.fwd s]
  | .cls c => if c.isPyd then some [.cls c] else none
  | .unionTy args => if args.any mayBeModel then some args else none
  | _ => none

/-- `NestedBackend.__init__` specialised to `NestedPydanticBackend`:
`self.field = self.model.__fields__[self.name]` (a `KeyError` when absent),
then `_post_init`, then `if not self.child_model: raise
RelationFieldError()` (fires both when `child_model` was never assigned and
when it is an empty sequence). -/
def pydInit (env : Env) (name : String) (model : Cls) : Except Err PydState :=
  match List.lookup name (env.pyd model).fields with
  | none => .error (.keyError name)
  | some f =>
      match pydDetect f with
      | some (t :: ts) => .ok ⟨name, model, f, t :: ts⟩
      | _ => .error .relationField

/-- `NestedPydanticBackend._process_type`: a forward reference becomes a
fresh `LazyForwardRefType[model, name, idx]` instance; a pydantic model
class resolves to `getattr(typ, "_strawberry_type", LazyModelType[typ])`
(the default placeholder is constructed eagerly, so a creation token is
consumed either way); anything else is already a strawberry type and passes
through. Returns the processed type and the next creation token. -/
def processType (model : Cls) (name : String) (t : PyType) (idx c : Nat) :
    PyType × Nat :=
  match t with
  | .fwd _ => (.lazyFwd model name idx c, c + 1)
  | .cls k =>
      if k.isPyd then
        match k.cache with
        | some n => (.sbType n, c + 1)
        | none => (.lazyModel (.cls k) c, c + 1)
      else (.cls k, c)
  | u => (u, c)

/-- The loop body of `NestedPydanticBackend._process_union` after the first
adjacent pair: `prev` is the element the previous iteration processed as its
second component (it is processed again), `acc` the union built so far, `i`
the current pair index. Each further pair contributes
`Union[acc, Union[typ_a, typ_b]]`. -/
def processUnionGo (model : Cls) (name : String) :
    PyType → PyType → List PyType → Nat → Nat → PyType × Nat
  | acc, _, [], _, c => (acc, c)
  | acc, prev, b :: rest, i, c =>
      let (pa, c1) := processType model name prev i c
      let (pb, c2) := processType model name b (i + 1) c1
      processUnionGo model name (mkUnion [acc, mkUnion [pa, pb]]) b rest
        (i + 1) c2

/-- `NestedPydanticBackend._process_union` on `a :: b :: rest` (the method
asserts at least two alternatives): the first adjacent pair `(a, b)` builds
`Union[typ_a, typ_b]`, each further pair `(a_i, a_i+1)` builds
`Union[acc, Union[typ_a, typ_b]]`. -/
def processUnion (model : Cls) (name : String) (a b : PyType)
    (rest : List PyType) (c : Nat) : PyType × Nat :=
  let (pa, c1) := processType model name a 0 c
  let (pb, c2) := processType model name b 1 c1
  processUnionGo model name (mkUnion [pa, pb]) b rest 1 c2

/-- Body of `NestedPydanticBackend.get_strawberry_type` once `child_model`,
the outer-wrapper list and the requiredness flag are available (the sqlmodel
backend inherits this body, overriding only the latter two): build the union
or process the single child, rebuild the outer wrappers, and wrap `Optional`
when a `NoneType` was seen among the outer types (`none_in_union`) or the
field is not required. The `[]` child case is unreachable:
`NestedBackend.__init__` raises `RelationFieldError` on an empty
`child_model`. -/
def getStrawberryTypeCore (model : Cls) (name : String)
    (child_model : List PyType) (outs : List Wrapper) (req : Bool) (c : Nat) :
    PyType × Nat :=
  let (t0, c1, none_in_union) :=
    match child_model with
    | a :: b :: rest =>
        let (u, c1) := processUnion model name a b rest c
        (u, c1, outs.any Wrapper.isNoneTypeCls)
    | [a] =>
        let (p, c1) := processType model name a 0 c
        (p, c1, false)
    | [] => (.noneType, c, false)
  let t1 := rebuild outs t0
  (if none_in_union || !req then mkOptional t1 else t1, c1)

/-- The `required` property of `NestedPydanticBackend`: the field's own
`required` flag, except that when that flag is the `Undefined` sentinel the
outermost type hint is consulted —
`getattr(get_type_hints(self.model)[self.name], "_name", None) !=
"Optional"`. (`get_type_hints` has an entry for every declared field; the
missing-name branch is unreachable.) -/
def pydRequired (env : Env) (model : Cls) (name : String) (r : Req) : Bool :=
  match r with
  | .defined b => b
  | .undef =>
      match List.lookup name (env.pyd model).hints with
      | some h => decide (nameAttr h ≠ some "Optional")
      | none => true

/-- `NestedPydanticBackend.get_strawberry_type`: the `outer_types` property
runs `extract_type_list(self.field.outer_type_)` (whose
`UnsupportedTypeError` propagates), `required` is the property above, and
the shared body does the rest. -/
def pydGetStrawberryType (env : Env) (st : PydState) (c : Nat) :
    Except Err (PyType × Nat) := do
  let (outs, _) ← extract_type_list st.fieldInfo.outer_type_
  let req := pydRequired env st.model st.name st.fieldInfo.required
  pure (getStrawberryTypeCore st.model st.name st.child_model outs req c)

/-! ## NestedOrmarBackend (`nested/ormar.py`) -/

/-- Which of the two relation shapes `NestedOrmarBackend._post_init`
recognised. -/
inductive OrmarRelKind where
  | fk
  | m2m
  | accessor
deriving DecidableEq, Repr

/-- The relation attributes `NestedOrmarBackend._post_init` fills in when
the field is a relation: the shape, `self.child_type`, `self._required`, and
the value `self.f_info.to` yields after `model.update_forward_refs()`. -/
structure OrmarRel where
  kind : OrmarRelKind
  child_type : PyType
  required : Req
  toAfterUpdate : PyType
deriving DecidableEq, Repr

/-- The detection logic of `NestedOrmarBackend._post_init`: a field present
in `__fields__` whose `field_info` is a `ForeignKeyField` or
`ManyToManyField` (child type `field_info.to`, requiredness the field's
own), or otherwise a class attribute that is a reverse-relation
`FieldAccessor` (child type `accessor._model`, `_required = False`).
Returns `none` when neither shape matches (the method returns without
setting any relation attribute). -/
def ormarDetect (env : Env) (name : String) (model : Cls) : Option OrmarRel :=
  match List.lookup name (env.ormarData model).fields with
  | some f =>
      match f.field_info with
      | .foreignKey tgt => some ⟨.fk, tgt, f.required, f.toAfterUpdate⟩
      | .manyToMany tgt => some ⟨.m2m, tgt, f.required, f.toAfterUpdate⟩
      | .plain => none
  | none =>
      match List.lookup name (env.ormarData model).accessors with
      | some acc => some ⟨.accessor, .cls acc, .defined false, .cls acc⟩
      | none => none

/-- State of `NestedOrmarBackend` after `_post_init` ran inside
`NestedBackend.__init__`: `child_model` was initialised to `None` by
`__init__` and `NestedOrmarBackend._post_init` never assigns it (it assigns
`child_type` instead), while `rel` holds the relation attributes
`_post_init` does fill in. -/
structure OrmarState where
  child_model : Option (List PyType)
  rel : Option OrmarRel
deriving DecidableEq, Repr

/-- `NestedBackend.__init__` up to (and excluding) the final falsiness
check, specialised to `NestedOrmarBackend`. -/
def ormarPostInitState (env : Env) (name : String) (model : Cls) :
    OrmarState :=
  { child_model := none, rel := ormarDetect env name model }

/-- `NestedBackend.__init__` specialised to `NestedOrmarBackend`: after
`_post_init`, `if not self.child_model: raise RelationFieldError()`. -/
def ormarInit (env : Env) (name : String) (model : Cls) :
    Except Err OrmarState :=
  let st := ormarPostInitState env name model
  match st.child_model with
  | none => .error .relationField
  | some [] => .error .relationField
  | some (_ :: _) => .ok st

/-- `NestedOrmarBackend.get_strawberry_type`, given the relation attributes
`_post_init` filled in: a still-unresolved forward-reference child triggers
`model.update_forward_refs()` and a re-read of `f_info.to`; the child
resolves to its cached `_strawberry_type` when present and truthy, else to a
fresh `LazyModelType` instance; many-to-many and accessor relations are
wrapped `List[Optional[-]]`; finally the whole type is wrapped `Optional`
unless `_required` is definitively true (the `Undefined` sentinel counts as
not required). -/
def ormarGetStrawberryType (r : OrmarRel) (c : Nat) : PyType × Nat :=
  let child := match r.child_type with
    | .fwd _ => r.toAfterUpdate
    | t => t
  let (base, c1) := match cacheOf child with
    | some n => (PyType.sbType n, c)
    | none => (PyType.lazyModel child c, c + 1)
  let wrapped := match r.kind with
    | .accessor => PyType.listTy (mkOptional base)
    | .m2m => PyType.listTy (mkOptional base)
    | .fk => base
  (if r.required.definitelyTrue then wrapped else mkOptional wrapped, c1)

/-! ## NestedSQLModelBackend (`nested/sqlmodel.py`) -/

/-- State of a constructed `NestedSQLModelBackend`: `_outer_types`,
`child_model` and `_required` as computed by its `_post_init` (the
`outer_types` / `required` properties of the pydantic backend are overridden
to return the first and last verbatim). -/
structure SQLState where
  name : String
  model : Cls
  outer : List Wrapper
  child_model : List PyType
  required : Bool
deriving DecidableEq, Repr

/-- `NestedBackend.__init__` specialised to `NestedSQLModelBackend`:
`getattr(self.model, self.name)` (an `AttributeError` when absent); when the
attribute's `.property` is a sqlalchemy `RelationshipProperty`, run the
declared annotation (`self.model.__annotations__[self.name]`, a `KeyError`
when absent) through `extract_type_list`, and compute
`self._required = self._outer_types[0] is not None.__class__` when the
wrapper list is non-empty, `True` otherwise; when the attribute is not a
relationship the method returns without assigning `child_model`, so
`__init__` raises `RelationFieldError`. -/
def sqlmInit (env : Env) (name : String) (model : Cls) :
    Except Err SQLState :=
  match List.lookup name (env.sqlm model).attrs with
  | none => .error (.attributeError name)
  | some .relationship =>
      match List.lookup name (env.sqlm model).annotations with
      | none => .error (.keyError name)
      | some ann => do
          let (outs, inner) ← extract_type_list ann
          let req := match outs with
            | [] => true
            | w :: _ => !w.isNoneTypeCls
          match inner with
          | t :: ts => .ok ⟨name, model, outs, t :: ts, req⟩
          | [] => .error .relationField
  | some .other => .error .relationField

/-- `NestedSQLModelBackend.get_strawberry_type` is inherited from the
pydantic backend with the `outer_types` and `required` properties overridden
by the precomputed values. -/
def sqlmGetStrawberryType (st : SQLState) (c : Nat) : PyType × Nat :=
  getStrawberryTypeCore st.model st.name st.child_model st.outer st.required c

/-! ## Backend dispatch and field synthesis (`nested/__init__.py`) -/

/-- The backend object `_nested_field_factory` returns. -/
inductive BackendResult where
  | ormarB (st : OrmarState)
  | sqlmB (st : SQLState)
  | pydB (st : PydState)
deriving DecidableEq, Repr

/-- `_nested_field_factory`: dispatch on the model's class hierarchy —
`NestedOrmarBackend` when the ormar import succeeded and the model is an
`ormar.Model`, `NestedSQLModelBackend` when the sqlmodel import succeeded
and the model is a `sqlmodel.SQLModel`, otherwise
`assert issubclass(model, pydantic.BaseModel)` (a bare assertion — its
failure is an `AssertionError`, not a descriptive error naming the model)
followed by `NestedPydanticBackend`. -/
def nestedFieldFactory (env : Env) (inst : Installed) (name : String)
    (model : Cls) : Except Err BackendResult :=
  if inst.ormarInstalled && model.isOrmarModel then
    (ormarInit env name model).map .ormarB
  else if inst.sqlmodelInstalled && model.isSQLModel then
    (sqlmInit env name model).map .sqlmB
  else if model.isPyd then
    (pydInit env name model).map .pydB
  else .error .assertionError

/-- `backend.get_strawberry_type()` on the factory's result. The ormar
branch is in practice unreachable (`ormarInit` always fails); reading the
relation attributes of a state whose `_post_init` did not fill them would be
an `AttributeError`. -/
def backendGetStrawberryType (env : Env) (b : BackendResult) (c : Nat) :
    Except Err (PyType × Nat) :=
  match b with
  | .ormarB st =>
      match st.rel with
      | some r => .ok (ormarGetStrawberryType r c)
      | none => .error (.attributeError "child_type")
  | .sqlmB st => .ok (sqlmGetStrawberryType st c)
  | .pydB st => pydGetStrawberryType env st c

/-- The default value already present on the type under construction for a
field name, or the strawberry `UNSET` sentinel. -/
inductive DefaultVal where
  | unset
  | val (n : Nat)
deriving DecidableEq, Repr

/-- The GraphQL type class under construction: its declared annotations and
its existing attribute values (`getattr(type_class, name, UNSET)`). -/
structure TypeClass where
  tid : Nat
  annotations : List String
  attrs : List (String × Nat)
deriving DecidableEq, Repr

/-- A synthesized `StrawberryField` descriptor: python name, no explicit
GraphQL name, the resolved type annotation, the owning type under
construction, and the default. (The module namespace attached to the
`StrawberryAnnotation` is not modelled; no claim depends on it.) -/
structure SField where
  python_name : String
  graphql_name : Option String
  annotation : PyType
  origin : Nat
  default : DefaultVal
deriving DecidableEq, Repr

/-- `process_nested_fields`: for each requested name not already declared as
an annotation on the type class, construct a backend; a
`RelationFieldError` is caught and the name skipped, every other exception
propagates; on success the backend's strawberry type becomes a synthesized
field descriptor. The placeholder-creation counter is threaded through. -/
def processNestedFields (env : Env) (inst : Installed)
    (type_class : TypeClass) (fields_set : List String) (model : Cls)
    (c : Nat) : Except Err (List SField × Nat) :=
  match fields_set with
  | [] => .ok ([], c)
  | name :: rest =>
      if name ∈ type_class.annotations then
        processNestedFields env inst type_class rest model c
      else
        match nestedFieldFactory env inst name model with
        | .error .relationField =>
            processNestedFields env inst type_class rest model c
        | .error e => .error e
        | .ok b => do
            let (st, c1) ← backendGetStrawberryType env b c
            let fld : SField :=
              { python_name := name
                graphql_name := none
                annotation := st
                origin := type_class.tid
                default :=
                  match List.lookup name type_class.attrs with
                  | some v => .val v
                  | none => .unset }
            let (rest_fields, c2) ←
              processNestedFields env inst type_class rest model c1
            .ok (fld :: rest_fields, c2)

/-! ## The compatibility shim (`orm.py`) -/

/-- The tail of `replace_ormar_types` (`orm.py` lines 44-64), run once
`f_info` / `f_accessor` / `child_type` / `_required` are bound (`f_info` is
only bound in the `__fields__` branch; in the accessor branch the child is a
class, so the forward-reference update that would read `f_info.to` does not
run). `toAfterUpdate` is the post-`update_forward_refs()` value of
`f_info.to`. -/
def ormarShimTail (f_info : Option OrmarFieldInfo) (f_accessor : Option Cls)
    (child_type : PyType) (required : Req) (toAfterUpdate : PyType)
    (c : Nat) : PyType × Nat :=
  let child := match child_type with
    | .fwd _ => toAfterUpdate
    | t => t
  let (base, c1) := match cacheOf child with
    | some n => (PyType.sbType n, c)
    | none => (PyType.lazyModel child c, c + 1)
  let isListWrapped :=
    f_accessor.isSome ||
      (match f_info with
       | some fi => fi.isM2M
       | none => false)
  let wrapped := if isListWrapped then PyType.listTy (mkOptional base) else base
  (if required.definitelyTrue then wrapped else mkOptional wrapped, c1)

/-- `replace_ormar_types` (`orm.py`): the backend-free duplicate of the
ormar relation resolution. A `__fields__` entry whose `field_info` is not a
relation descriptor returns the passed-in type unchanged; when neither the
`__fields__` branch nor the accessor branch binds `child_type`, the
following read of `child_type` is an unbound-local error. -/
def replace_ormar_types (env : Env) (type_ : PyType) (model : Cls)
    (name : String) (c : Nat) : Except Err (PyType × Nat) :=
  match List.lookup name (env.ormarData model).fields with
  | some f =>
      match f.field_info with
      | .plain => .ok (type_, c)
      | .foreignKey tgt =>
          .ok (ormarShimTail (some (.foreignKey tgt)) none tgt f.required
                f.toAfterUpdate c)
      | .manyToMany tgt =>
          .ok (ormarShimTail (some (.manyToMany tgt)) none tgt f.required
                f.toAfterUpdate c)
  | none =>
      match List.lookup name (env.ormarData model).accessors with
      | some acc =>
          .ok (ormarShimTail none (some acc) (.cls acc) (.defined false)
                (.cls acc) c)
      | none => .error (.nameError "child_type")

/-! ## Helper lemmas on the union constructors -/

namespace PyType

/-- A value is flat when, if it is a union, none of its immediate arguments
is again a union. Every value produced by `mkUnion` is flat, as is every
runtime `typing` union (CPython flattens on construction). -/
def flat : PyType → Prop
  | .unionTy l => ∀ x ∈ l, isUnion x = false
  | _ => True

theorem flat_of_not_union {t : PyType} (h : isUnion t = false) : flat t := by
  cases t <;> first
    | exact trivial
    | simp [isUnion] at h

theorem flattenOnce_of_no_union {l : List PyType}
    (h : ∀ t ∈ l, isUnion t = false) : flattenOnce l = l := by
  induction l with
  | nil => rfl
  | cons x xs ih =>
      cases x <;> simp [flattenOnce]
      all_goals first
        | exact ih fun t ht => h t (List.mem_cons_of_mem _ ht)
        | exact absurd (h _ (List.mem_cons_self _ _)) (by simp [isUnion])

theorem mem_flattenOnce_of_not_union {l : List PyType} {x : PyType}
    (hx : isUnion x = false) (h : x ∈ l) : x ∈ flattenOnce l := by
  induction l with
  | nil => simp at h
  | cons y ys ih =>
      rcases List.mem_cons.mp h with rfl | h2
      · cases x
        case unionTy => simp [isUnion] at hx
        all_goals simp [flattenOnce]
      · cases y <;> simp [flattenOnce] <;>
          first
            | exact ih h2
            | exact Or.inr (ih h2)

theorem mem_flattenOnce_of_mem_union {l a : List PyType} {x : PyType}
    (hu : .unionTy a ∈ l) (hx : x ∈ a) : x ∈ flattenOnce l := by
  induction l with
  | nil => simp at hu
  | cons y ys ih =>
      rcases List.mem_cons.mp hu with rfl | h2
      · simp [flattenOnce]
        exact Or.inl hx
      · cases y <;> simp [flattenOnce] <;>
          first
            | exact ih h2
            | exact Or.inr (ih h2)

theorem not_union_of_mem_flattenOnce {l : List PyType}
    (hl : ∀ p ∈ l, flat p) : ∀ x ∈ flattenOnce l, isUnion x = false := by
  induction l with
  | nil => simp [flattenOnce]
  | cons y ys ih =>
      intro x hx
      have hys : ∀ p ∈ ys, flat p := fun p hp => hl p (List.mem_cons_of_mem _ hp)
      cases y with
      | unionTy a =>
          simp [flattenOnce] at hx
          rcases hx with hx | hx
          · exact hl (.unionTy a) (List.mem_cons_self _ _) x hx
          · exact ih hys x hx
      | cls c =>
          simp [flattenOnce] at hx
          rcases hx with rfl | hx
          · simp [isUnion]
          · exact ih hys x hx
      | noneType =>
          simp [flattenOnce] at hx
          rcases hx with rfl | hx
          · simp [isUnion]
          · exact ih hys x hx
      | sbType n =>
          simp [flattenOnce] at hx
          rcases hx with rfl | hx
          · simp [isUnion]
          · exact ih hys x hx
      | fwd s =>
          simp [flattenOnce] at hx
          rcases hx with rfl | hx
          · simp [isUnion]
          · exact ih hys x hx
      | listTy a =>
          simp [flattenOnce] at hx
          rcases hx with rfl | hx
          · simp [isUnion]
          · exact ih hys x hx
      | lazyModel t tok =>
          simp [flattenOnce] at hx
          rcases hx with rfl | hx
          · simp [isUnion]
          · exact ih hys x hx
      | lazyFwd m s i tok =>
          simp [flattenOnce] at hx
          rcases hx with rfl | hx
          · simp [isUnion]
          · exact ih hys x hx

theorem mem_dedupSeen {x : PyType} :
    ∀ {seen l : List PyType}, (x ∈ dedupSeen seen l ↔ x ∈ l ∧ x ∉ seen) := by
  intro seen l
  induction l generalizing seen with
  | nil => simp [dedupSeen]
  | cons y ys ih =>
      by_cases hy : y ∈ seen
      · rw [show dedupSeen seen (y :: ys) = dedupSeen seen ys from by
          simp only [dedupSeen, if_pos hy], ih]
        constructor
        · rintro ⟨h1, h2⟩
          exact ⟨List.mem_cons_of_mem _ h1, h2⟩
        · rintro ⟨h1, h2⟩
          rcases List.mem_cons.mp h1 with rfl | h1
          · exact absurd hy h2
          · exact ⟨h1, h2⟩
      · rw [show dedupSeen seen (y :: ys) = y :: dedupSeen (y :: seen) ys from by
          simp only [dedupSeen, if_neg hy]]
        constructor
        · intro hmem
          rcases List.mem_cons.mp hmem with rfl | hmem
          · exact ⟨List.mem_cons_self _ _, hy⟩
          · have h2 := ih.mp hmem
            exact ⟨List.mem_cons_of_mem _ h2.1,
              fun hs => h2.2 (List.mem_cons_of_mem _ hs)⟩
        · rintro ⟨h1, h2⟩
          rcases List.mem_cons.mp h1 with rfl | h1
          · exact List.mem_cons_self _ _
          · by_cases hxy : x = y
            · exact hxy ▸ List.mem_cons_self _ _
            · refine List.mem_cons_of_mem _ (ih.mpr ⟨h1, fun hs => ?_⟩)
              rcases List.mem_cons.mp hs with h | h
              · exact hxy h
              · exact h2 h

theorem nodup_dedupSeen : ∀ (seen l : List PyType), (dedupSeen seen l).Nodup := by
  intro seen l
  induction l generalizing seen with
  | nil => simp [dedupSeen]
  | cons y ys ih =>
      by_cases hy : y ∈ seen
      · rw [show dedupSeen seen (y :: ys) = dedupSeen seen ys from by
          simp only [dedupSeen, if_pos hy]]
        exact ih seen
      · rw [show dedupSeen seen (y :: ys) = y :: dedupSeen (y :: seen) ys from by
          simp only [dedupSeen, if_neg hy]]
        refine List.nodup_cons.mpr ⟨?_, ih (y :: seen)⟩
        intro hmem
        exact (mem_dedupSeen.mp hmem).2 (List.mem_cons_self _ _)

theorem dedupSeen_congr {l : List PyType} :
    ∀ {s1 s2 : List PyType}, (∀ x, x ∈ s1 ↔ x ∈ s2) →
      dedupSeen s1 l = dedupSeen s2 l := by
  induction l with
  | nil => intro s1 s2 _; rfl
  | cons y ys ih =>
      intro s1 s2 h
      by_cases hy : y ∈ s1
      · rw [show dedupSeen s1 (y :: ys) = dedupSeen s1 ys from by
            simp only [dedupSeen, if_pos hy],
          show dedupSeen s2 (y :: ys) = dedupSeen s2 ys from by
            simp only [dedupSeen, if_pos ((h y).mp hy)]]
        exact ih h
      · have hy2 : y ∉ s2 := fun hc => hy ((h y).mpr hc)
        rw [show dedupSeen s1 (y :: ys) = y :: dedupSeen (y :: s1) ys from by
            simp only [dedupSeen, if_neg hy],
          show dedupSeen s2 (y :: ys) = y :: dedupSeen (y :: s2) ys from by
            simp only [dedupSeen, if_neg hy2]]
        refine congrArg (y :: ·) (ih fun x => ?_)
        rw [List.mem_cons, List.mem_cons]
        exact or_congr Iff.rfl (h x)

theorem dedupSeen_eq_self {l : List PyType} :
    ∀ {seen : List PyType}, l.Nodup → (∀ x ∈ l, x ∉ seen) →
      dedupSeen seen l = l := by
  induction l with
  | nil => intro seen _ _; rfl
  | cons y ys ih =>
      intro seen hnd hfree
      have hy : y ∉ seen := hfree y (List.mem_cons_self _ _)
      rw [show dedupSeen seen (y :: ys) = y :: dedupSeen (y :: seen) ys from by
        simp only [dedupSeen, if_neg hy]]
      refine congrArg (y :: ·) (ih (List.Nodup.of_cons hnd) ?_)
      intro x hx hmem
      rcases List.mem_cons.mp hmem with rfl | hs
      · exact (List.nodup_cons.mp hnd).1 hx
      · exact hfree x (List.mem_cons_of_mem _ hx) hs

theorem dedupSeen_append {M : List PyType} :
    ∀ {L seen : List PyType}, L.Nodup → (∀ z ∈ L, z ∉ seen) →
      dedupSeen seen (L ++ M) = L ++ dedupSeen (L ++ seen) M := by
  intro L
  induction L with
  | nil => intro seen _ _; rfl
  | cons a L ih =>
      intro seen hnd hfree
      have ha : a ∉ seen := hfree a (List.mem_cons_self _ _)
      have hstep : dedupSeen seen (a :: (L ++ M)) =
          a :: dedupSeen (a :: seen) (L ++ M) := by
        simp only [dedupSeen, if_neg ha, List.append_eq]
      have hfree2 : ∀ z ∈ L, z ∉ a :: seen := by
        intro z hz hmem
        rcases List.mem_cons.mp hmem with rfl | hs
        · exact (List.nodup_cons.mp hnd).1 hz
        · exact hfree z (List.mem_cons_of_mem _ hz) hs
      rw [List.cons_append, hstep, ih (List.Nodup.of_cons hnd) hfree2]
      refine congrArg (a :: ·) (congrArg (L ++ ·) (dedupSeen_congr fun x => ?_))
      simp only [List.mem_append, List.mem_cons]
      tauto

theorem dedupSeen_append_absorb {L : List PyType} {x : PyType}
    (hnd : L.Nodup) (hx : x ∈ L) : dedupSeen [] (L ++ [x]) = L := by
  rw [dedupSeen_append hnd (by simp)]
  simp [dedupSeen, hx]

theorem dedupSeen_append_pair {L : List PyType} {x y : PyType}
    (hnd : L.Nodup) (hx : x ∈ L) (hy : y ∉ L) :
    dedupSeen [] (L ++ [x, y]) = L ++ [y] := by
  rw [dedupSeen_append hnd (by simp)]
  simp [dedupSeen, hx, hy]

/-- A flat, duplicate-free list of at least two non-union parameters passes
through `typing.Union[...]` unchanged. -/
theorem mkUnion_eq_self {l : List PyType} (hnd : l.Nodup)
    (hnu : ∀ t ∈ l, isUnion t = false) (hlen : 2 ≤ l.length) :
    mkUnion l = .unionTy l := by
  unfold mkUnion
  rw [flattenOnce_of_no_union hnu, dedupSeen_eq_self hnd (by simp)]
  match l, hlen with
  | a :: b :: rest, _ => rfl

/-- Either side of the `goodOrSimple` disjunction below. -/
def goodUnion (t : PyType) : Prop :=
  ∃ l, t = .unionTy l ∧ l.Nodup ∧ 2 ≤ l.length ∧ ∀ x ∈ l, isUnion x = false

/-- Invariant satisfied by every value flowing through `_process_union`: it
is a non-union value, or a well-formed flat union as produced by
`typing.Union[...]`. -/
def goodOrSimple (t : PyType) : Prop :=
  isUnion t = false ∨ goodUnion t

theorem flat_of_goodOrSimple {t : PyType} (h : goodOrSimple t) : flat t := by
  rcases h with h | ⟨l, rfl, _, _, hnu⟩
  · exact flat_of_not_union h
  · exact hnu

theorem goodOrSimple_not_union {t : PyType} (h : isUnion t = false) :
    goodOrSimple t := Or.inl h

/-- `mkUnion` sends flat parameters, at least one of which is itself
well-formed, to a well-formed result. -/
theorem mkUnion_good {ps : List PyType} (hf : ∀ p ∈ ps, flat p)
    (hex : ∃ p ∈ ps, goodOrSimple p) : goodOrSimple (mkUnion ps) := by
  have hflat : ∀ x ∈ flattenOnce ps, isUnion x = false :=
    not_union_of_mem_flattenOnce hf
  have hne : flattenOnce ps ≠ [] := by
    rcases hex with ⟨p, hp, hgood⟩
    rcases hgood with hnu | ⟨l, rfl, _, hlen, _⟩
    · intro hc
      exact absurd (hc ▸ mem_flattenOnce_of_not_union hnu hp) (by simp)
    · match l, hlen with
      | a :: l, _ =>
          intro hc
          have := mem_flattenOnce_of_mem_union hp (List.mem_cons_self a l)
          rw [hc] at this
          simp at this
  unfold mkUnion
  have hnd := nodup_dedupSeen [] (flattenOnce ps)
  have hmem : ∀ x ∈ dedupSeen [] (flattenOnce ps), isUnion x = false :=
    fun x hx => hflat x (mem_dedupSeen.mp hx).1
  match hd : dedupSeen [] (flattenOnce ps) with
  | [] =>
      exfalso
      match hf2 : flattenOnce ps, hne with
      | x :: xs, _ =>
          rw [hf2] at hd
          rw [show dedupSeen [] (x :: xs) = x :: dedupSeen [x] xs from by
            simp [dedupSeen]] at hd
          exact List.cons_ne_nil _ _ hd
  | [t] =>
      exact goodOrSimple_not_union (hmem t (hd ▸ List.mem_cons_self t []))
  | a :: b :: rest =>
      refine Or.inr ⟨a :: b :: rest, rfl, hd ▸ hnd, by simp, hd ▸ hmem⟩

theorem topHas_of_not_union {x t : PyType} (h : isUnion t = false) :
    topHas x t = decide (t = x) := by
  unfold topHas
  by_cases he : t = x
  · simp [he]
  · cases t <;> simp_all [isUnion]

theorem exists_topHas_of_noneType_mem_flattenOnce :
    ∀ {ps : List PyType}, .noneType ∈ flattenOnce ps →
      ∃ t ∈ ps, topHas .noneType t = true := by
  intro ps
  induction ps with
  | nil => simp [flattenOnce]
  | cons p ps ih =>
      intro hmem
      cases p with
      | unionTy a =>
          simp only [flattenOnce, List.mem_append] at hmem
          rcases hmem with hmem | hmem
          · exact ⟨.unionTy a, List.mem_cons_self _ _, by simp [topHas, hmem]⟩
          · obtain ⟨t, ht, h2⟩ := ih hmem
            exact ⟨t, List.mem_cons_of_mem _ ht, h2⟩
      | noneType =>
          exact ⟨.noneType, List.mem_cons_self _ _, by simp [topHas]⟩
      | cls c =>
          simp only [flattenOnce, List.mem_cons] at hmem
          rcases hmem with hmem | hmem
          · exact absurd hmem.symm (by simp)
          · obtain ⟨t, ht, h2⟩ := ih hmem
            exact ⟨t, List.mem_cons_of_mem _ ht, h2⟩
      | sbType n =>
          simp only [flattenOnce, List.mem_cons] at hmem
          rcases hmem with hmem | hmem
          · exact absurd hmem.symm (by simp)
          · obtain ⟨t, ht, h2⟩ := ih hmem
            exact ⟨t, List.mem_cons_of_mem _ ht, h2⟩
      | fwd s =>
          simp only [flattenOnce, List.mem_cons] at hmem
          rcases hmem with hmem | hmem
          · exact absurd hmem.symm (by simp)
          · obtain ⟨t, ht, h2⟩ := ih hmem
            exact ⟨t, List.mem_cons_of_mem _ ht, h2⟩
      | listTy a =>
          simp only [flattenOnce, List.mem_cons] at hmem
          rcases hmem with hmem | hmem
          · exact absurd hmem.symm (by simp)
          · obtain ⟨t, ht, h2⟩ := ih hmem
            exact ⟨t, List.mem_cons_of_mem _ ht, h2⟩
      | lazyModel u tok =>
          simp only [flattenOnce, List.mem_cons] at hmem
          rcases hmem with hmem | hmem
          · exact absurd hmem.symm (by simp)
          · obtain ⟨t, ht, h2⟩ := ih hmem
            exact ⟨t, List.mem_cons_of_mem _ ht, h2⟩
      | lazyFwd m s i tok =>
          simp only [flattenOnce, List.mem_cons] at hmem
          rcases hmem with hmem | hmem
          · exact absurd hmem.symm (by simp)
          · obtain ⟨t, ht, h2⟩ := ih hmem
            exact ⟨t, List.mem_cons_of_mem _ ht, h2⟩

theorem noneType_mem_flattenOnce_of_topHas {ps : List PyType} {t : PyType}
    (ht : t ∈ ps) (h2 : topHas .noneType t = true) :
    .noneType ∈ flattenOnce ps := by
  by_cases hu : isUnion t = true
  · match t, hu with
    | .unionTy a, _ =>
        have hmem : PyType.noneType ∈ a := by
          unfold topHas at h2
          simp only [if_neg (by simp : PyType.unionTy a ≠ PyType.noneType)] at h2
          simpa using h2
        exact mem_flattenOnce_of_mem_union ht hmem
  · have hu2 : isUnion t = false := by simpa using hu
    rw [topHas_of_not_union hu2] at h2
    have : t = .noneType := by simpa using h2
    subst this
    exact mem_flattenOnce_of_not_union (by simp [isUnion]) ht

/-- Characterisation of nullability through `typing.Union[...]`: for flat
parameters, the result has `NoneType` among its top-level members exactly
when some parameter does. -/
theorem topHas_none_mkUnion {ps : List PyType} (hf : ∀ p ∈ ps, flat p) :
    (topHas .noneType (mkUnion ps) = true ↔
      ∃ t ∈ ps, topHas .noneType t = true) := by
  have hflat : ∀ x ∈ flattenOnce ps, isUnion x = false :=
    not_union_of_mem_flattenOnce hf
  have hmemiff : .noneType ∈ flattenOnce ps ↔
      ∃ t ∈ ps, topHas .noneType t = true :=
    ⟨exists_topHas_of_noneType_mem_flattenOnce,
     fun ⟨t, ht, h2⟩ => noneType_mem_flattenOnce_of_topHas ht h2⟩
  unfold mkUnion
  have hdmem : PyType.noneType ∈ dedupSeen [] (flattenOnce ps) ↔
      PyType.noneType ∈ flattenOnce ps := by
    rw [mem_dedupSeen]
    simp
  match hd : dedupSeen [] (flattenOnce ps) with
  | [t] =>
      have hnut : isUnion t = false :=
        hflat t (mem_dedupSeen.mp (hd ▸ List.mem_cons_self t [])).1
      rw [topHas_of_not_union hnut]
      rw [hd] at hdmem
      simp only [List.mem_singleton] at hdmem
      rw [← hmemiff, ← hdmem]
      simp [eq_comm]
  | [] =>
      rw [hd] at hdmem
      simp only [List.not_mem_nil] at hdmem
      rw [← hmemiff]
      simp [topHas, ← hdmem]
  | a :: b :: rest =>
      rw [hd] at hdmem
      rw [← hmemiff, ← hdmem]
      simp [topHas]

/-- Flatness is preserved by `typing.Union[...]`. -/
theorem flat_mkUnion {ps : List PyType} (hf : ∀ p ∈ ps, flat p) :
    flat (mkUnion ps) := by
  have hflat : ∀ x ∈ flattenOnce ps, isUnion x = false :=
    not_union_of_mem_flattenOnce hf
  unfold mkUnion
  match hd : dedupSeen [] (flattenOnce ps) with
  | [t] => exact flat_of_not_union (hflat t (mem_dedupSeen.mp (hd ▸ List.mem_cons_self t [])).1)
  | [] => intro x hx; simp at hx
  | a :: b :: rest =>
      intro x hx
      exact hflat x (mem_dedupSeen.mp (hd ▸ hx)).1

/-- Wrapping an already nullable, well-formed value in `Optional` is the
identity: `Optional[u]` flattens into the union and the `NoneType` member
deduplicates away. -/
theorem mkOptional_fix {r : PyType} (hg : goodOrSimple r)
    (hn : topHas .noneType r = true) : mkOptional r = r := by
  rcases hg with hnu | ⟨l, rfl, hnd, hlen, hnul⟩
  · rw [topHas_of_not_union hnu] at hn
    have : r = .noneType := by simpa using hn
    subst this
    rfl
  · have hmem : PyType.noneType ∈ l := by
      unfold topHas at hn
      simp only [if_neg (by simp : PyType.unionTy l ≠ PyType.noneType)] at hn
      simpa using hn
    unfold mkOptional mkUnion
    have hfo : flattenOnce [PyType.unionTy l, PyType.noneType] =
        l ++ [PyType.noneType] := by
      simp [flattenOnce]
    rw [hfo, dedupSeen_append_absorb hnd hmem]
    match l, hlen with
    | a :: b :: rest, _ => rfl

end PyType

open PyType

/-! ## Behaviour of `_process_type` and `_process_union` -/

theorem processType_eq_noneType_iff {model : Cls} {name : String}
    {t : PyType} {i c : Nat} :
    ((processType model name t i c).1 = .noneType ↔ t = .noneType) := by
  cases t <;> simp [processType]
  case cls k => cases hp : k.isPyd <;> cases hc : k.cache <;> simp

theorem processType_not_union {model : Cls} {name : String} {t : PyType}
    {i c : Nat} (h : isUnion t = false) :
    isUnion (processType model name t i c).1 = false := by
  cases t <;> simp [processType, isUnion] at h ⊢
  case cls k => cases hp : k.isPyd <;> cases hc : k.cache <;> simp [isUnion]

/-- The invariant carried through the `_process_union` loop, and the
nullability bookkeeping: the running union stays well-formed and flat, and
`NoneType` appears among its top-level members exactly when it already did
or one of the remaining (re)processed alternatives is `NoneType` itself. -/
theorem processUnionGo_invariant {model : Cls} {name : String} :
    ∀ (rest : List PyType) (prev acc : PyType) (i c : Nat),
      goodOrSimple acc →
      (∀ t ∈ prev :: rest, isUnion t = false) →
      (prev = .noneType → topHas .noneType acc = true) →
      goodOrSimple (processUnionGo model name acc prev rest i c).1 ∧
        (topHas .noneType (processUnionGo model name acc prev rest i c).1 = true ↔
          topHas .noneType acc = true ∨ .noneType ∈ rest) := by
  intro rest
  induction rest with
  | nil =>
      intro prev acc i c hg _ _
      simp [processUnionGo, hg]
  | cons b rest ih =>
      intro prev acc i c hg hnu hprev
      have hnup : isUnion prev = false := hnu prev (List.mem_cons_self _ _)
      have hnub : isUnion b = false :=
        hnu b (List.mem_cons_of_mem _ (List.mem_cons_self _ _))
      simp only [processUnionGo]
      set pa := (processType model name prev i c).1 with hpa
      set c1 := (processType model name prev i c).2 with hc1
      set pb := (processType model name b (i + 1) c1).1 with hpb
      set c2 := (processType model name b (i + 1) c1).2 with hc2
      have hnupa : isUnion pa = false := processType_not_union hnup
      have hnupb : isUnion pb = false := processType_not_union hnub
      have hinner_flat : ∀ p ∈ [pa, pb], flat p := by
        intro p hp
        rcases List.mem_cons.mp hp with rfl | hp
        · exact flat_of_not_union hnupa
        · rcases List.mem_cons.mp hp with rfl | hp
          · exact flat_of_not_union hnupb
          · simp at hp
      have hinner_good : goodOrSimple (mkUnion [pa, pb]) :=
        mkUnion_good hinner_flat ⟨pa, List.mem_cons_self _ _, Or.inl hnupa⟩
      have houter_flat : ∀ p ∈ [acc, mkUnion [pa, pb]], flat p := by
        intro p hp
        rcases List.mem_cons.mp hp with rfl | hp
        · exact flat_of_goodOrSimple hg
        · rcases List.mem_cons.mp hp with rfl | hp
          · exact flat_of_goodOrSimple hinner_good
          · simp at hp
      have houter_good : goodOrSimple (mkUnion [acc, mkUnion [pa, pb]]) :=
        mkUnion_good houter_flat ⟨acc, List.mem_cons_self _ _, hg⟩
      have htop_inner : topHas .noneType (mkUnion [pa, pb]) = true ↔
          prev = .noneType ∨ b = .noneType := by
        rw [topHas_none_mkUnion hinner_flat]
        constructor
        · rintro ⟨t, ht, h2⟩
          rcases List.mem_cons.mp ht with rfl | ht
          · rw [topHas_of_not_union hnupa] at h2
            exact Or.inl (processType_eq_noneType_iff.mp (by simpa using h2))
          · rcases List.mem_cons.mp ht with rfl | ht
            · rw [topHas_of_not_union hnupb] at h2
              exact Or.inr (processType_eq_noneType_iff.mp (by simpa using h2))
            · simp at ht
        · rintro (h | h)
          · refine ⟨pa, List.mem_cons_self _ _, ?_⟩
            rw [topHas_of_not_union hnupa]
            exact decide_eq_true (processType_eq_noneType_iff.mpr h)
          · refine ⟨pb, List.mem_cons_of_mem _ (List.mem_cons_self _ _), ?_⟩
            rw [topHas_of_not_union hnupb]
            exact decide_eq_true (processType_eq_noneType_iff.mpr h)
      have htop_outer : topHas .noneType (mkUnion [acc, mkUnion [pa, pb]]) = true ↔
          topHas .noneType acc = true ∨ b = .noneType := by
        rw [topHas_none_mkUnion houter_flat]
        constructor
        · rintro ⟨t, ht, h2⟩
          rcases List.mem_cons.mp ht with rfl | ht
          · exact Or.inl h2
          · rcases List.mem_cons.mp ht with rfl | ht
            · rcases htop_inner.mp h2 with h | h
              · exact Or.inl (hprev h)
              · exact Or.inr h
            · simp at ht
        · rintro (h | h)
          · exact ⟨acc, List.mem_cons_self _ _, h⟩
          · exact ⟨mkUnion [pa, pb],
              List.mem_cons_of_mem _ (List.mem_cons_self _ _),
              htop_inner.mpr (Or.inr h)⟩
      obtain ⟨ihg, ihtop⟩ := ih b (mkUnion [acc, mkUnion [pa, pb]]) (i + 1) c2
        houter_good (fun t ht => hnu t (List.mem_cons_of_mem _ ht))
        (fun hb => htop_outer.mpr (Or.inr hb))
      refine ⟨ihg, ?_⟩
      rw [ihtop, htop_outer]
      constructor
      · rintro ((h | h) | h)
        · exact Or.inl h
        · exact Or.inr (List.mem_cons.mpr (Or.inl h.symm))
        · exact Or.inr (List.mem_cons_of_mem _ h)
      · rintro (h | h)
        · exact Or.inl (Or.inl h)
        · rcases List.mem_cons.mp h with h | h
          · exact Or.inl (Or.inr h.symm)
          · exact Or.inr h

/-- Nullability and well-formedness of the full `_process_union` result on
non-union alternatives: the built union is well-formed and contains a
top-level `NoneType` member exactly when `NoneType` is among the
alternatives. -/
theorem processUnion_characterisation {model : Cls} {name : String}
    {a b : PyType} {rest : List PyType} {c : Nat}
    (hnu : ∀ t ∈ a :: b :: rest, isUnion t = false) :
    goodOrSimple (processUnion model name a b rest c).1 ∧
      (topHas .noneType (processUnion model name a b rest c).1 = true ↔
        .noneType ∈ a :: b :: rest) := by
  have hna : isUnion a = false := hnu a (List.mem_cons_self _ _)
  have hnb : isUnion b = false :=
    hnu b (List.mem_cons_of_mem _ (List.mem_cons_self _ _))
  simp only [processUnion]
  set pa := (processType model name a 0 c).1 with hpa
  set c1 := (processType model name a 0 c).2 with hc1
  set pb := (processType model name b 1 c1).1 with hpb
  set c2 := (processType model name b 1 c1).2 with hc2
  have hnupa : isUnion pa = false := processType_not_union hna
  have hnupb : isUnion pb = false := processType_not_union hnb
  have hflat0 : ∀ p ∈ [pa, pb], flat p := by
    intro p hp
    rcases List.mem_cons.mp hp with rfl | hp
    · exact flat_of_not_union hnupa
    · rcases List.mem_cons.mp hp with rfl | hp
      · exact flat_of_not_union hnupb
      · simp at hp
  have hg0 : goodOrSimple (mkUnion [pa, pb]) :=
    mkUnion_good hflat0 ⟨pa, List.mem_cons_self _ _, Or.inl hnupa⟩
  have htop0 : topHas .noneType (mkUnion [pa, pb]) = true ↔
      a = .noneType ∨ b = .noneType := by
    rw [topHas_none_mkUnion hflat0]
    constructor
    · rintro ⟨t, ht, h2⟩
      rcases List.mem_cons.mp ht with rfl | ht
      · rw [topHas_of_not_union hnupa] at h2
        exact Or.inl (processType_eq_noneType_iff.mp (by simpa using h2))
      · rcases List.mem_cons.mp ht with rfl | ht
        · rw [topHas_of_not_union hnupb] at h2
          exact Or.inr (processType_eq_noneType_iff.mp (by simpa using h2))
        · simp at ht
    · rintro (h | h)
      · refine ⟨pa, List.mem_cons_self _ _, ?_⟩
        rw [topHas_of_not_union hnupa]
        exact decide_eq_true (processType_eq_noneType_iff.mpr h)
      · refine ⟨pb, List.mem_cons_of_mem _ (List.mem_cons_self _ _), ?_⟩
        rw [topHas_of_not_union hnupb]
        exact decide_eq_true (processType_eq_noneType_iff.mpr h)
  obtain ⟨hgood, htop⟩ := processUnionGo_invariant rest b (mkUnion [pa, pb]) 1 c2
    hg0 (fun t ht => hnu t (List.mem_cons_of_mem _ ht))
    (fun hb => htop0.mpr (Or.inr hb))
  refine ⟨hgood, ?_⟩
  rw [htop, htop0]
  constructor
  · rintro ((h | h) | h)
    · exact List.mem_cons.mpr (Or.inl h.symm)
    · exact List.mem_cons_of_mem _ (List.mem_cons.mpr (Or.inl h.symm))
    · exact List.mem_cons_of_mem _ (List.mem_cons_of_mem _ h)
  · intro h
    rcases List.mem_cons.mp h with h | h
    · exact Or.inl (Or.inl h.symm)
    · rcases List.mem_cons.mp h with h | h
      · exact Or.inl (Or.inr h.symm)
      · exact Or.inr h

/-! ## Deterministically processed alternatives -/

/-- Whether `_process_type` yields the same value however often it is called
on the alternative: true for already-cached pydantic models and for
pass-through values; false for forward references and uncached models, whose
processing creates a fresh placeholder object each time. -/
def stableProc : PyType → Bool
  | .fwd _ => false
  | .cls c => !c.isPyd || c.cache.isSome
  | _ => true

/-- The `_process_type` output of a stable alternative (independent of the
index and creation counter). The uncached-model branch is never reached for
stable values. -/
def stableVal : PyType → PyType
  | .cls c =>
      if c.isPyd then
        match c.cache with
        | some n => .sbType n
        | none => .cls c
      else .cls c
  | t => t

theorem processType_stable {model : Cls} {name : String} {t : PyType}
    {i c : Nat} (h : stableProc t = true) :
    (processType model name t i c).1 = stableVal t := by
  cases t <;> simp [stableProc, processType, stableVal] at h ⊢
  case cls k =>
    cases hp : k.isPyd <;> cases hc : k.cache <;> simp_all

theorem stableVal_not_union {t : PyType} (h : isUnion t = false) :
    isUnion (stableVal t) = false := by
  cases t <;> simp [stableVal, isUnion] at h ⊢
  case cls k =>
    cases hp : k.isPyd <;> cases hc : k.cache <;> simp [isUnion]

/-- Absorbing one further processed pair into the running union:
`Union[Union[L], Union[x, y]]` flattens to `L ++ [x, y]` and, since `x` was
already the last element merged, deduplicates to `L ++ [y]`. -/
theorem mkUnion_pair_union_absorb {L : List PyType} {x y : PyType}
    (hnd : L.Nodup) (hx : x ∈ L) (hy : y ∉ L)
    (hnuL : ∀ z ∈ L, isUnion z = false) (hnux : isUnion x = false)
    (hnuy : isUnion y = false) (hlen : 2 ≤ L.length) :
    mkUnion [.unionTy L, mkUnion [x, y]] = .unionTy (L ++ [y]) := by
  have hxy : x ≠ y := fun hc => hy (hc ▸ hx)
  have hinner : mkUnion [x, y] = .unionTy [x, y] := by
    refine mkUnion_eq_self ?_ ?_ (by simp)
    · simp [hxy]
    · intro t ht
      rcases List.mem_cons.mp ht with rfl | ht
      · exact hnux
      · rcases List.mem_cons.mp ht with rfl | ht
        · exact hnuy
        · simp at ht
  rw [hinner]
  unfold mkUnion
  have hfo : flattenOnce [PyType.unionTy L, PyType.unionTy [x, y]] =
      L ++ [x, y] := by
    simp [flattenOnce]
  rw [hfo, dedupSeen_append_pair hnd hx hy]
  match L, hlen with
  | a :: b :: L2, _ => rfl

/-- The `_process_union` loop on stable alternatives, relative to a running
union that already holds the processed prefix (whose last member is the
re-processed previous alternative): each pair appends exactly one new
processed value, in order. -/
theorem processUnionGo_stable {model : Cls} {name : String} :
    ∀ (rest : List PyType) (b : PyType) (L : List PyType) (i c : Nat),
      (∀ t ∈ b :: rest, stableProc t = true ∧ isUnion t = false) →
      L.Nodup → (∀ x ∈ L, isUnion x = false) → 2 ≤ L.length →
      stableVal b ∈ L → (L ++ rest.map stableVal).Nodup →
      (processUnionGo model name (.unionTy L) b rest i c).1 =
        .unionTy (L ++ rest.map stableVal) := by
  intro rest
  induction rest with
  | nil =>
      intro b L i c _ _ _ _ _ _
      simp [processUnionGo]
  | cons b2 rest ih =>
      intro b L i c hst hnd hnuL hlen hb hnd2
      have hstb : stableProc b = true := (hst b (List.mem_cons_self _ _)).1
      have hstb2 : stableProc b2 = true :=
        (hst b2 (List.mem_cons_of_mem _ (List.mem_cons_self _ _))).1
      have hnub : isUnion b = false := (hst b (List.mem_cons_self _ _)).2
      have hnub2 : isUnion b2 = false :=
        (hst b2 (List.mem_cons_of_mem _ (List.mem_cons_self _ _))).2
      have hmapnd : (L ++ stableVal b2 :: rest.map stableVal).Nodup := by
        simpa using hnd2
      have hb2notL : stableVal b2 ∉ L := by
        intro hc
        have := (List.nodup_append.mp hmapnd).2.2
        exact this hc (List.mem_cons_self _ _)
      simp only [processUnionGo]
      rw [processType_stable hstb, processType_stable hstb2,
        mkUnion_pair_union_absorb hnd hb hb2notL hnuL
          (stableVal_not_union hnub) (stableVal_not_union hnub2) hlen]
      have hstep := ih b2 (L ++ [stableVal b2]) (i + 1)
        (processType model name b2 (i + 1)
          (processType model name b i c).2).2
        (fun t ht => hst t (List.mem_cons_of_mem _ ht))
        ?_ ?_ ?_ (by simp) ?_
      · rw [hstep, List.append_assoc]
        simp
      · have hsub : (L ++ [stableVal b2]).Sublist
            (L ++ stableVal b2 :: rest.map stableVal) :=
          List.Sublist.append_left
            (List.Sublist.cons₂ _ (List.nil_sublist _)) L
        exact List.Nodup.sublist hsub hmapnd
      · intro x hx
        rcases List.mem_append.mp hx with hx | hx
        · exact hnuL x hx
        · rcases List.mem_cons.mp hx with rfl | hx
          · exact stableVal_not_union hnub2
          · simp at hx
      · calc 2 ≤ L.length := hlen
          _ ≤ (L ++ [stableVal b2]).length := by simp
      · rw [List.append_assoc]
        simpa using hmapnd

/-- C2 (amended): `_process_union` folds adjacent pairs
(`Union[acc, Union[a_i, a_i+1]]`), re-processing each interior alternative;
when every alternative's processing is deterministic (an already-cached
model or a pass-through value) and the processed values are pairwise
distinct, runtime union flattening and first-occurrence deduplication make
the result the flat union of each alternative's processed type exactly
once, preserving left-to-right input order. (The original claim fails when
an interior alternative processes to a fresh placeholder; see the
counterexample.) -/
theorem claim_C2_amended {model : Cls} {name : String} {a b : PyType}
    {rest : List PyType} {c : Nat}
    (hst : ∀ t ∈ a :: b :: rest, stableProc t = true ∧ isUnion t = false)
    (hnd : ((a :: b :: rest).map stableVal).Nodup) :
    (processUnion model name a b rest c).1 =
      .unionTy ((a :: b :: rest).map stableVal) := by
  have hsta : stableProc a = true := (hst a (List.mem_cons_self _ _)).1
  have hstb : stableProc b = true :=
    (hst b (List.mem_cons_of_mem _ (List.mem_cons_self _ _))).1
  have hnua : isUnion a = false := (hst a (List.mem_cons_self _ _)).2
  have hnub : isUnion b = false :=
    (hst b (List.mem_cons_of_mem _ (List.mem_cons_self _ _))).2
  have hmape : (a :: b :: rest).map stableVal =
      [stableVal a, stableVal b] ++ rest.map stableVal := by simp
  rw [hmape] at hnd
  have hane : stableVal a ≠ stableVal b := by
    have := (List.nodup_append.mp hnd).1
    simp at this
    exact this
  have hacc : mkUnion [stableVal a, stableVal b] =
      .unionTy [stableVal a, stableVal b] := by
    refine mkUnion_eq_self (by simp [hane]) ?_ (by simp)
    intro t ht
    rcases List.mem_cons.mp ht with rfl | ht
    · exact stableVal_not_union hnua
    · rcases List.mem_cons.mp ht with rfl | ht
      · exact stableVal_not_union hnub
      · simp at ht
  simp only [processUnion]
  rw [processType_stable hsta, processType_stable hstb, hacc]
  rw [processUnionGo_stable rest b [stableVal a, stableVal b] 1 _
    (fun t ht => hst t (List.mem_cons_of_mem _ ht))
    (by simp [hane])
    (by
      intro x hx
      rcases List.mem_cons.mp hx with rfl | hx
      · exact stableVal_not_union hnua
      · rcases List.mem_cons.mp hx with rfl | hx
        · exact stableVal_not_union hnub
        · simp at hx)
    (by simp) (by simp) hnd]
  rw [hmape]

/-! ## Extraction of a general union -/

/-- A union whose `_name` is not `"Optional"` (more than two arguments, or
no `NoneType` argument) reaches the general-union branch of
`extract_type_list` unchanged: no wrapper is recorded and the arguments —
`NoneType` included, if present — become the bottom types. -/
theorem extract_unionTy_general {args : List PyType}
    (h2 : args.length = 2 → .noneType ∉ args) (hlen : 2 ≤ args.length) :
    extract_type_list (.unionTy args) = .ok ([], args) := by
  match args, hlen with
  | [a, b], _ =>
      have hn := h2 rfl
      have ha : ¬(a = PyType.noneType) := fun hc => hn (by simp [hc])
      have hb : ¬(b = PyType.noneType) := fun hc => hn (by simp [hc])
      simp [extract_type_list, ha, hb]
  | a :: b :: x :: xs, _ => rfl

@[simp]
theorem exceptBind_ok {ε α β : Type} (a : α) (f : α → Except ε β) :
    (Except.ok a >>= f) = f a := rfl

@[simp]
theorem exceptBind_error {ε α β : Type} (e : ε) (f : α → Except ε β) :
    ((Except.error e : Except ε α) >>= f) = .error e := rfl

instance {ε α : Type} [DecidableEq ε] [DecidableEq α] :
    DecidableEq (Except ε α) := fun a b =>
  match a, b with
  | .ok x, .ok y =>
      if h : x = y then isTrue (by rw [h])
      else isFalse fun hc => h (by injection hc)
  | .error e, .error f =>
      if h : e = f then isTrue (by rw [h])
      else isFalse fun hc => h (by injection hc)
  | .ok _, .error _ => isFalse fun hc => Except.noConfusion hc
  | .error _, .ok _ => isFalse fun hc => Except.noConfusion hc

/-! ## Concrete fixtures used by counterexamples and witnesses

Modelled on the test fixtures of the repository: ormar models with a
foreign-key / many-to-many / reverse-accessor field, a sqlmodel class with
relationship attributes, and a plain pydantic model with a union relation
field. The `cache := some n` classes already carry a generated
`_strawberry_type`. -/

def managerC : Cls := { cid := 1, isPyd := true, isOrmarModel := true, cache := some 11 }

def teamC : Cls := { cid := 2, isPyd := true, isOrmarModel := true, cache := none }

def heroC : Cls := { cid := 3, isPyd := true, isSQLModel := true, cache := none }

def heroOrmC : Cls := { cid := 9, isPyd := true, isOrmarModel := true, cache := none }

def branchA : Cls := { cid := 4, isPyd := true, cache := some 14 }

def branchB : Cls := { cid := 5, isPyd := true, cache := none }

def branchC : Cls := { cid := 6, isPyd := true, cache := some 16 }

def branchD : Cls := { cid := 10, isPyd := true, cache := some 17 }

def plainModel : Cls := { cid := 7, isPyd := true, cache := none }

def nonModelC : Cls := { cid := 8 }

def fi3 : PydFieldInfo :=
  { type_ := .unionTy [.cls branchA, .cls branchC, .noneType]
    outer_type_ := .unionTy [.cls branchA, .cls branchC, .noneType]
    required := .defined true }

def envFix : Env :=
  { pyd := fun m =>
      if m.cid = 7 then
        { fields := [("mates", fi3)], hints := [("mates", fi3.type_)] }
      else { fields := [], hints := [] }
    ormarData := fun m =>
      if m.cid = 2 then
        { fields :=
            [("manager",
               { field_info := .foreignKey (.cls managerC)
                 required := .defined true
                 toAfterUpdate := .cls managerC }),
             ("referrers",
               { field_info := .manyToMany (.cls managerC)
                 required := .undef
                 toAfterUpdate := .cls managerC })]
          accessors := [("heroes", heroOrmC)] }
      else { fields := [], accessors := [] }
    sqlm := fun m =>
      if m.cid = 3 then
        { attrs := [("team", .relationship), ("heroes", .relationship)]
          annotations :=
            [("team", mkOptional (.cls teamC)),
             ("heroes", .listTy (.cls plainModel))] }
      else { attrs := [], annotations := [] } }

def instBoth : Installed := { ormarInstalled := true, sqlmodelInstalled := true }

/-- Number of top-level members a typing value contributes as a union. -/
def unionArity : PyType → Nat
  | .unionTy l => l.length
  | _ => 1

/-- Whether a dispatcher outcome is the descriptive unsupported-model error
(naming the model) that the spec describes. -/
def isUnsupportedModelError : Except Err BackendResult → Bool
  | .error (.unsupportedModelError _) => true
  | _ => false

/-! ## Claim theorems -/

/-- C1: the claim says construction of the ormar backend succeeds (does not
raise the relation-field error) precisely for foreign-key / many-to-many /
reverse-accessor fields. In the code as written, `NestedOrmarBackend
._post_init` assigns `self.child_type` while `NestedBackend.__init__` tests
`self.child_model`, which stays `None`; construction therefore raises
`RelationFieldError` for every ormar field — including a field the
detection logic itself recognises as a foreign-key relation, as the second
conjunct shows on the fixture `Team.manager`. -/
theorem claim_C1_ormar_backend_construction_always_raises :
    (∀ (env : Env) (name : String) (model : Cls),
        ormarInit env name model = Except.error Err.relationField) ∧
      ormarDetect envFix "manager" teamC =
        some ⟨.fk, .cls managerC, .defined true, .cls managerC⟩ := by
  constructor
  · intro env name model
    rfl
  · decide

/-- C9 counterexample: for a model class in neither ORM hierarchy and not a
pydantic model, `_nested_field_factory` fails with a bare `AssertionError`
(from `assert issubclass(model, pydantic.BaseModel)`), not with a
descriptive unsupported-model error naming the model as the claim states. -/
theorem claim_C9_counterexample :
    nestedFieldFactory envFix instBoth "x" nonModelC =
        Except.error Err.assertionError ∧
      isUnsupportedModelError
        (nestedFieldFactory envFix instBoth "x" nonModelC) = false := by
  constructor <;> decide

/-- C9 (amended): when the model belongs to neither ORM-extension hierarchy
and is not a pydantic model, the dispatcher fails with a bare assertion
error (it never raises a descriptive error naming the model). -/
theorem claim_C9_amended (env : Env) (inst : Installed) (name : String)
    (model : Cls)
    (h1 : (inst.ormarInstalled && model.isOrmarModel) = false)
    (h2 : (inst.sqlmodelInstalled && model.isSQLModel) = false)
    (h3 : model.isPyd = false) :
    nestedFieldFactory env inst name model =
      Except.error Err.assertionError := by
  simp [nestedFieldFactory, h1, h2, h3]

/-- Witness for C9 (amended) at a concrete unsupported model. -/
theorem claim_C9_witness :
    nestedFieldFactory envFix instBoth "y" nonModelC =
      Except.error Err.assertionError :=
  claim_C9_amended envFix instBoth "y" nonModelC (by decide) (by decide)
    (by decide)

/-- C6 counterexample: for the sqlmodel relationship `Hero.team` annotated
`Optional[Team]`, the computed requiredness is `True`, not `False` as the
claim states: the wrapper list holds the `typing.Optional` form, which the
test `self._outer_types[0] is not None.__class__` never identifies with
`NoneType`. -/
theorem claim_C6_counterexample :
    (sqlmInit envFix "team" heroC).map (fun st => st.required) =
        Except.ok true ∧
      (sqlmInit envFix "team" heroC).map (fun st => st.required) ≠
        Except.ok false := by
  constructor <;> decide

/-- C6 (amended): the sqlmodel backend's computed requiredness is true for
every accepted relationship field — the first-wrapper-versus-`NoneType`
test never fires because the wrapper list only ever holds the
`typing.Optional` / `typing.List` forms — in particular also for an
annotation of shape `Optional[X]`. -/
theorem claim_C6_amended (env : Env) (name : String) (model : Cls)
    (st : SQLState) (h : sqlmInit env name model = .ok st) :
    st.required = true := by
  unfold sqlmInit at h
  cases ha : List.lookup name (env.sqlm model).attrs with
  | none =>
      rw [ha] at h
      exact absurd h (by simp)
  | some p =>
      rw [ha] at h
      cases p with
      | other =>
          dsimp only at h
          exact absurd h (by simp)
      | relationship =>
          dsimp only at h
          cases hb : List.lookup name (env.sqlm model).annotations with
          | none =>
              rw [hb] at h
              exact absurd h (by simp)
          | some ann =>
              rw [hb] at h
              dsimp only at h
              cases hext : extract_type_list ann with
              | error e =>
                  rw [hext, exceptBind_error] at h
                  exact absurd h (by simp)
              | ok pair =>
                  rw [hext, exceptBind_ok] at h
                  obtain ⟨outs, inner⟩ := pair
                  cases inner with
                  | nil =>
                      exact absurd h (by simp)
                  | cons t ts =>
                      dsimp only at h
                      injection h with h
                      cases outs with
                      | nil => rw [← h]
                      | cons w ws =>
                          rw [← h]
                          cases w <;> rfl

/-- Witness for C6 (amended): the fixture relationship `Team.heroes`
annotated `List[Hero]` is computed required. -/
theorem claim_C6_witness :
    (⟨"heroes", heroC, [.wList], [.cls plainModel], true⟩ : SQLState).required
      = true :=
  claim_C6_amended envFix "heroes" heroC
    ⟨"heroes", heroC, [.wList], [.cls plainModel], true⟩ (by decide)

/-- C7 counterexample: the runtime value of `Optional[Union[BranchA,
BranchB]]` is the flattened three-argument union, whose `_name` is not
`"Optional"`; `extract_type_list` therefore reaches the general-union
branch without stripping the null: it returns an empty wrapper list and a
bottom tuple that still contains `NoneType`, not `([Optional], (BranchA,
BranchB))` as the claim states. -/
theorem claim_C7_counterexample :
    extract_type_list (mkOptional (mkUnion [.cls branchA, .cls branchB])) =
        .ok ([], [.cls branchA, .cls branchB, .noneType]) ∧
      extract_type_list (mkOptional (mkUnion [.cls branchA, .cls branchB])) ≠
        .ok ([.wOptional], [.cls branchA, .cls branchB]) := by
  constructor <;> decide

/-- C7 (amended): a union mixing one null alternative with at least two
non-null alternatives reaches the general-union step whole: extraction
records no wrapper and returns the null alternative alongside the others in
the bottom tuple. (Only the two-argument `Optional[X]` shape has its null
stripped.) -/
theorem claim_C7_amended (alts : List PyType) (h2 : 2 ≤ alts.length)
    (hn : ∀ t ∈ alts, isUnion t = false ∧ t ≠ .noneType)
    (hnd : alts.Nodup) :
    extract_type_list (mkOptional (mkUnion alts)) =
      .ok ([], alts ++ [.noneType]) := by
  obtain ⟨a, b, rest, rfl⟩ : ∃ a b rest, alts = a :: b :: rest := by
    match alts, h2 with
    | a :: b :: rest, _ => exact ⟨a, b, rest, rfl⟩
  have hmk : mkUnion (a :: b :: rest) = .unionTy (a :: b :: rest) :=
    mkUnion_eq_self hnd (fun t ht => (hn t ht).1) (by simp)
  rw [hmk]
  have hnomem : PyType.noneType ∉ a :: b :: rest := by
    intro hc
    exact (hn _ hc).2 rfl
  have hopt : mkOptional (.unionTy (a :: b :: rest)) =
      .unionTy ((a :: b :: rest) ++ [.noneType]) := by
    unfold mkOptional mkUnion
    have hfo : flattenOnce [PyType.unionTy (a :: b :: rest), .noneType] =
        (a :: b :: rest) ++ [PyType.noneType] := by
      simp [flattenOnce]
    rw [hfo, dedupSeen_eq_self ?_ (by simp)]
    · rfl
    · refine List.Nodup.append hnd (by simp) ?_
      intro x hx hy
      simp at hy
      subst hy
      exact hnomem hx
  rw [hopt]
  refine extract_unionTy_general (fun hlen => ?_) (by simp)
  exfalso
  simp at hlen

/-- Witness for C7 (amended) on three concrete alternatives. -/
theorem claim_C7_witness :
    extract_type_list
        (mkOptional (mkUnion [.cls branchA, .cls branchB, .cls branchC])) =
      .ok ([], [.cls branchA, .cls branchB, .cls branchC] ++ [.noneType]) :=
  claim_C7_amended [.cls branchA, .cls branchB, .cls branchC] (by decide)
    (by decide) (by decide)

/-- C5: container-type extraction on `Optional[List[X]]` yields the wrapper
list `[Optional, List]` with bottom tuple `(X,)`; applied to a bare record
class or forward reference it yields `([], (type,))`; and the rewrap loop
applied to `[Optional, List]` around a resolved `Y` rebuilds
`Optional[List[Y]]` innermost-first. -/
theorem claim_C5_extract_and_rebuild (X : Cls) (hX : X.isPyd = true) :
    extract_type_list (mkOptional (.listTy (.cls X))) =
        .ok ([.wOptional, .wList], [.cls X]) ∧
      extract_type_list (.cls X) = .ok ([], [.cls X]) ∧
      (∀ s, extract_type_list (.fwd s) = .ok ([], [.fwd s])) ∧
      (∀ Y : PyType, rebuild [.wOptional, .wList] Y =
        mkOptional (.listTy Y)) := by
  refine ⟨?_, ?_, fun s => rfl, fun Y => rfl⟩
  · rw [show mkOptional (.listTy (.cls X)) =
        .unionTy [.listTy (.cls X), .noneType] from rfl]
    simp [extract_type_list, hX]
  · simp [extract_type_list, hX]

/-- Witness for C5 at a concrete record class. -/
theorem claim_C5_witness :
    extract_type_list (mkOptional (.listTy (.cls branchA))) =
      .ok ([.wOptional, .wList], [.cls branchA]) :=
  (claim_C5_extract_and_rebuild branchA (by decide)).1

/-- C10: a requested name that is neither a declared annotation on the type
class nor present in the pydantic model's `__fields__` makes the default
backend's construction raise a `KeyError` (not the relation-field error),
which `process_nested_fields` does not catch — it propagates. -/
theorem claim_C10_missing_field_keyerror (env : Env) (inst : Installed)
    (tc : TypeClass) (model : Cls) (name : String) (c : Nat)
    (h0 : name ∉ tc.annotations)
    (h1 : (inst.ormarInstalled && model.isOrmarModel) = false)
    (h2 : (inst.sqlmodelInstalled && model.isSQLModel) = false)
    (h3 : model.isPyd = true)
    (h4 : List.lookup name (env.pyd model).fields = none) :
    processNestedFields env inst tc [name] model c =
        .error (.keyError name) ∧
      Err.keyError name ≠ Err.relationField := by
  refine ⟨?_, by simp⟩
  simp [processNestedFields, h0, nestedFieldFactory, h1, h2, h3, pydInit, h4,
    Except.map]

/-- Witness for C10 at a concrete absent field name. -/
theorem claim_C10_witness :
    processNestedFields envFix instBoth ⟨0, [], []⟩ ["nope"] plainModel 0 =
      .error (.keyError "nope") :=
  (claim_C10_missing_field_keyerror envFix instBoth ⟨0, [], []⟩ plainModel
    "nope" 0 (by decide) (by decide) (by decide) (by decide) (by decide)).1

/-- C2 counterexample: on the three alternatives `[BranchA, ForwardRef("B"),
BranchC]` (cached model, forward reference, cached model), the built union
has four members, not three: the interior forward-reference alternative is
processed twice — once as the second element of the first pair and once as
the first element of the second pair — and each processing creates a fresh
placeholder (creation tokens 1 and 2), which do not deduplicate. The
left-fold result the claim describes would contain each alternative's
processed type exactly once, i.e. three members. -/
theorem claim_C2_counterexample :
    (processUnion plainModel "u" (.cls branchA) (.fwd "B") [.cls branchC]
          0).1 =
        .unionTy [.sbType 14, .lazyFwd plainModel "u" 1 1,
          .lazyFwd plainModel "u" 1 2, .sbType 16] ∧
      unionArity
        (processUnion plainModel "u" (.cls branchA) (.fwd "B") [.cls branchC]
          0).1 = 4 ∧
      [PyType.cls branchA, .fwd "B", .cls branchC].length = 3 := by
  refine ⟨by decide, by decide, by decide⟩

/-- Witness for C2 (amended) on three cached-model alternatives. -/
theorem claim_C2_witness :
    (processUnion plainModel "u" (.cls branchA) (.cls branchC)
          [.cls branchD] 0).1 =
      .unionTy
        ([PyType.cls branchA, .cls branchC, .cls branchD].map stableVal) :=
  claim_C2_amended (by decide) (by decide)

/-- The resolved child type `T` of the ormar type assembly: the
(post-forward-reference-update) target's cached strawberry type when
present, else a fresh model placeholder. -/
def ormarResolvedChild (r : OrmarRel) (c : Nat) : PyType :=
  match cacheOf (match r.child_type with
                 | .fwd _ => r.toAfterUpdate
                 | t => t) with
  | some n => .sbType n
  | none => .lazyModel (match r.child_type with
                        | .fwd _ => r.toAfterUpdate
                        | t => t) c

/-- C4: for every relation the ormar backend's detection step resolves,
the type assembly yields `List[Optional[T]]` for many-to-many and reverse
field-accessor relations, a bare `T` for single foreign-key relations, and
wraps the whole result `Optional` unless the computed requiredness is
definitively `True` (the `Undefined` sentinel counts as not required). -/
theorem claim_C4_ormar_type_assembly (env : Env) (name : String)
    (model : Cls) (r : OrmarRel) (c : Nat)
    (_hdet : ormarDetect env name model = some r) :
    ((r.kind = OrmarRelKind.m2m ∨ r.kind = OrmarRelKind.accessor) →
        (ormarGetStrawberryType r c).1 =
          (if r.required = Req.defined true
           then PyType.listTy (mkOptional (ormarResolvedChild r c))
           else mkOptional
             (PyType.listTy (mkOptional (ormarResolvedChild r c))))) ∧
      (r.kind = OrmarRelKind.fk →
        (ormarGetStrawberryType r c).1 =
          (if r.required = Req.defined true then ormarResolvedChild r c
           else mkOptional (ormarResolvedChild r c))) := by
  clear _hdet
  obtain ⟨kind, ct, req, tu⟩ := r
  have hdeq : ∀ (q : Req), q.definitelyTrue = decide (q = Req.defined true) := by
    intro q
    cases q with
    | undef => rfl
    | defined b => cases b <;> rfl
  constructor
  · rintro (rfl | rfl) <;>
      · dsimp only [ormarGetStrawberryType, ormarResolvedChild]
        rw [hdeq]
        generalize (match ct with | PyType.fwd _ => tu | t => t) = child
        cases hc : cacheOf child <;>
          by_cases hreq : req = Req.defined true <;>
            simp [hc, hreq]
  · rintro rfl
    dsimp only [ormarGetStrawberryType, ormarResolvedChild]
    rw [hdeq]
    generalize (match ct with | PyType.fwd _ => tu | t => t) = child
    cases hc : cacheOf child <;>
      by_cases hreq : req = Req.defined true <;>
        simp [hc, hreq]

/-- Witness for C4 at the fixture many-to-many field `Team.referrers`
(requiredness undefined, hence wrapped `Optional`). -/
theorem claim_C4_witness :
    (ormarGetStrawberryType
        ⟨.m2m, .cls managerC, .undef, .cls managerC⟩ 0).1 =
      mkOptional (PyType.listTy (mkOptional
        (ormarResolvedChild ⟨.m2m, .cls managerC, .undef, .cls managerC⟩ 0))) := by
  have h := (claim_C4_ormar_type_assembly envFix "referrers" teamC
    ⟨.m2m, .cls managerC, .undef, .cls managerC⟩ 0 (by decide)).1
    (Or.inl rfl)
  simpa using h

/-- C8: on every field the ormar backend's detection step accepts as a
relation, the compatibility shim `replace_ormar_types` computes exactly the
backend's `get_strawberry_type` result — same cached-type-or-placeholder
choice, same list wrapping, same optional wrapping. -/
theorem claim_C8_shim_matches_backend (env : Env) (type_ : PyType)
    (model : Cls) (name : String) (c : Nat) (r : OrmarRel)
    (h : ormarDetect env name model = some r) :
    replace_ormar_types env type_ model name c =
      Except.ok (ormarGetStrawberryType r c) := by
  unfold ormarDetect at h
  unfold replace_ormar_types
  cases hf : List.lookup name (env.ormarData model).fields with
  | some f =>
      rw [hf] at h
      dsimp only at h ⊢
      cases hfi : f.field_info with
      | plain =>
          rw [hfi] at h
          dsimp only at h
          exact absurd h (by simp)
      | foreignKey tgt =>
          rw [hfi] at h
          dsimp only at h
          injection h with h
          subst h
          rfl
      | manyToMany tgt =>
          rw [hfi] at h
          dsimp only at h
          injection h with h
          subst h
          rfl
  | none =>
      rw [hf] at h
      dsimp only at h ⊢
      cases ha : List.lookup name (env.ormarData model).accessors with
      | some acc =>
          rw [ha] at h
          dsimp only at h
          injection h with h
          subst h
          rfl
      | none =>
          rw [ha] at h
          dsimp only at h
          exact absurd h (by simp)

/-- Witness for C8 at the fixture reverse accessor `Team.heroes`. -/
theorem claim_C8_witness :
    replace_ormar_types envFix (.cls heroOrmC) teamC "heroes" 0 =
      Except.ok (ormarGetStrawberryType
        ⟨.accessor, .cls heroOrmC, .defined false, .cls heroOrmC⟩ 0) :=
  claim_C8_shim_matches_backend envFix (.cls heroOrmC) teamC "heroes" 0
    ⟨.accessor, .cls heroOrmC, .defined false, .cls heroOrmC⟩ (by decide)

/-- C3: for a union relation field of the default backend whose declared
outer type is the union itself and which mixes a bare null alternative
among the alternatives, the final type returned by `get_strawberry_type`
is `Optional`-wrapped whatever the computed requiredness: the `NoneType`
alternative passes through `_process_type` into the built union, making it
nullable (in the Python `typing` runtime, `Optional[u]` literally is a
union with a `NoneType` member, so "wrapped `Optional`" is
`mkOptional r = r` together with a top-level `NoneType` member). With no
null alternative, no such wrap appears on that account — a definitively
required field stays non-nullable. -/
theorem claim_C3_union_null_alternative (env : Env) (name : String)
    (model : Cls) (fi : PydFieldInfo) (args : List PyType)
    (h1 : List.lookup name (env.pyd model).fields = some fi)
    (h2 : fi.type_ = .unionTy args)
    (h3 : fi.outer_type_ = fi.type_)
    (h4 : ∀ t ∈ args, isUnion t = false)
    (h5 : 3 ≤ args.length ∨ (2 ≤ args.length ∧ .noneType ∉ args))
    (h7 : args.any mayBeModel = true) :
    ∀ (st : PydState) (c c2 : Nat) (r : PyType),
      pydInit env name model = .ok st →
      pydGetStrawberryType env st c = .ok (r, c2) →
      ((.noneType ∈ args → topHas .noneType r = true ∧ mkOptional r = r) ∧
        (.noneType ∉ args →
          pydRequired env model name fi.required = true →
          topHas .noneType r = false)) := by
  intro st c c2 r hinit hget
  have hlen : 2 ≤ args.length := by
    rcases h5 with h5 | h5
    · omega
    · exact h5.1
  obtain ⟨a, b, rest, rfl⟩ : ∃ a b rest, args = a :: b :: rest := by
    match args, hlen with
    | a :: b :: rest, _ => exact ⟨a, b, rest, rfl⟩
  have hst : st = ⟨name, model, fi, a :: b :: rest⟩ := by
    unfold pydInit at hinit
    rw [h1] at hinit
    dsimp only at hinit
    unfold pydDetect at hinit
    rw [h2] at hinit
    simp only [h7, if_true] at hinit
    injection hinit with hinit
    exact hinit.symm
  subst hst
  have hn2 : (a :: b :: rest).length = 2 → PyType.noneType ∉ a :: b :: rest := by
    intro hl
    rcases h5 with h5 | h5
    · rw [hl] at h5
      omega
    · exact h5.2
  have hext : extract_type_list fi.outer_type_ = .ok ([], a :: b :: rest) := by
    rw [h3, h2]
    exact extract_unionTy_general hn2 hlen
  unfold pydGetStrawberryType at hget
  rw [hext, exceptBind_ok] at hget
  dsimp only [getStrawberryTypeCore] at hget
  injection hget with hget
  have hr : r = (if !pydRequired env model name fi.required
      then mkOptional (processUnion model name a b rest c).1
      else (processUnion model name a b rest c).1) := by
    have := congrArg Prod.fst hget
    simpa [rebuild] using this.symm
  obtain ⟨hgood, htop⟩ :=
    @processUnion_characterisation model name a b rest c
      (fun t ht => h4 t ht)
  constructor
  · intro hmem
    have htopu : topHas .noneType (processUnion model name a b rest c).1 =
        true := htop.mpr hmem
    have hall : topHas .noneType r = true ∧ goodOrSimple r := by
      rw [hr]
      cases hq : pydRequired env model name fi.required with
      | true =>
          simp only [Bool.not_true, if_false]
          exact ⟨htopu, hgood⟩
      | false =>
          simp only [Bool.not_false, if_true]
          have hf2 : ∀ p ∈ [(processUnion model name a b rest c).1,
              PyType.noneType], flat p := by
            intro p hp
            rcases List.mem_cons.mp hp with rfl | hp
            · exact flat_of_goodOrSimple hgood
            · rcases List.mem_cons.mp hp with rfl | hp
              · exact flat_of_not_union (by simp [isUnion])
              · simp at hp
          refine ⟨?_, mkUnion_good hf2
            ⟨_, List.mem_cons_self _ _, hgood⟩⟩
          exact (topHas_none_mkUnion hf2).mpr
            ⟨_, List.mem_cons_self _ _, htopu⟩
    exact ⟨hall.1, mkOptional_fix hall.2 hall.1⟩
  · intro hmem hreqtrue
    rw [hr, hreqtrue]
    cases hb : topHas .noneType (processUnion model name a b rest c).1 with
    | false => simpa using hb
    | true => exact absurd (htop.mp hb) hmem

/-- Witness for C3 at the fixture union field `plainModel.mates` of type
`Union[BranchA, BranchC, None]` with `required` definitively `True`. -/
theorem claim_C3_witness :
    topHas .noneType (.unionTy [.sbType 14, .sbType 16, .noneType]) = true ∧
      mkOptional (.unionTy [.sbType 14, .sbType 16, .noneType]) =
        .unionTy [.sbType 14, .sbType 16, .noneType] :=
  (claim_C3_union_null_alternative envFix "mates" plainModel fi3
      [.cls branchA, .cls branchC, .noneType] (by decide) (by decide)
      (by decide) (by decide) (by decide) (by decide)
      ⟨"mates", plainModel, fi3, [.cls branchA, .cls branchC, .noneType]⟩
      0 3 (.unionTy [.sbType 14, .sbType 16, .noneType])
      (by decide) (by decide)).1 (by decide)

end Strawberry
